import Mathlib

/-!
Shallow embedding of `folium/utilities.py` (color codec, linear gradient,
colorbrewer scheme catalog, legend scaler, quantile rounding helper).

Modelling conventions:
* Python strings are modelled as `List Char` (with `String` wrappers at the
  public boundary where convenient).
* Python numbers flowing through the color pipeline are modelled as exact
  rationals (`ℚ`).  The one place where binary64 rounding is observable at
  the level of the specified behaviour — the `divisor` of `legend_scaler`,
  whose value feeds a float equality test `i % divisor == 0` — is modelled
  with an explicit round-to-nearest-even binary64 rounding function `fl64`
  (the float mod itself is exact, see `pymod`).
* A Python expression that can raise (IndexError, ValueError) is modelled
  with `Option`; `color_brewer`'s explicit `raise ValueError` is modelled
  with `Except String`.
-/

/-- Python `int(q)` on a real number: truncation toward zero. -/
def pyint (q : ℚ) : ℤ := if 0 ≤ q then ⌊q⌋ else ⌈q⌉

/-- Python `x % y` for real `x` and `y > 0`: floored remainder
`x - y * floor (x / y)`.  (For binary64 floats this value is computed
exactly: IEEE `fmod` plus CPython's sign adjustment introduces no rounding
error, so only the rounding of `y` itself ever matters.) -/
def pymod (x y : ℚ) : ℚ := x - y * ⌊x / y⌋

/-- Python 3 `round(q)` to an integer: round half to even. -/
def pyround (q : ℚ) : ℤ :=
  let n := ⌊q⌋
  let r := q - n
  if r < 1/2 then n else if 1/2 < r then n + 1 else if 2 ∣ n then n else n + 1

/-- Failure-propagating map over a list, modelling a Python list
comprehension whose body may raise. -/
def mapOpt (f : α → Option β) : List α → Option (List β)
  | [] => some []
  | a :: l => (f a).bind fun b => (mapOpt f l).bind fun bs => some (b :: bs)

/-- The literal `alphas = 'ABCDEF'` of the source. -/
def alphas : List Char := ['A', 'B', 'C', 'D', 'E', 'F']

/-- Source `_numeric_to_indhex(mathval)`: a value `< 10` is rendered with
`str` (so a negative value yields a multi-character string, as in Python),
a value in `[10, 15]` indexes into `alphas`, and a larger value raises
IndexError (`none`). -/
def _numeric_to_indhex (mathval : ℤ) : Option (List Char) :=
  if mathval < 10 then some (toString mathval).data
  else (alphas.get? (mathval - 10).toNat).map (fun c => [c])

/-- Source `_colorval_to_hexval(cval)`: split a channel value into high and
low nibble (`int(cval/16)`, `int(cval%16)`) and render both. -/
def _colorval_to_hexval (cval : ℚ) : Option (List Char) :=
  (_numeric_to_indhex (pyint (cval / 16))).bind fun div =>
    (_numeric_to_indhex (pyint (pymod cval 16))).bind fun rem =>
      some (div ++ rem)

/-- Source `rgb_to_hex(color_code)` on the underlying character list:
`'#' + ''.join([_colorval_to_hexval(tcolor) for tcolor in color_code])`. -/
def rgb_to_hex_chars (color_code : List ℚ) : Option (List Char) :=
  (mapOpt _colorval_to_hexval color_code).bind fun parts =>
    some ('#' :: parts.flatten)

/-- Source `rgb_to_hex` returning a Python string. -/
def rgb_to_hex (color_code : List ℚ) : Option String :=
  (rgb_to_hex_chars color_code).map String.mk

/-- Zero code points of the 66 aligned runs of Unicode decimal digits
(category Nd).  A one-character string is accepted by CPython `int`
exactly when its code point lies in `[z, z + 9]` for one of these `z`,
with decimal value `code point - z`; the table is enumerated from the
CPython runtime's own Unicode data. -/
def decimalDigitZeros : List ℕ :=
  [48, 1632, 1776, 1984, 2406, 2534, 2662, 2790, 2918, 3046, 3174, 3302,
   3430, 3558, 3664, 3792, 3872, 4160, 4240, 6112, 6160, 6470, 6608, 6784,
   6800, 6992, 7088, 7232, 7248, 42528, 43216, 43264, 43472, 43504, 43600,
   44016, 65296, 66720, 68912, 69734, 69872, 69942, 70096, 70384, 70736,
   70864, 71248, 71360, 71472, 71904, 72016, 72784, 73040, 73120, 92768,
   92864, 93008, 120782, 120792, 120802, 120812, 120822, 123200, 123632,
   125264, 130032]

/-- Python `int(c)` on a one-character string: succeeds exactly on a
Unicode decimal digit, yielding its decimal value. -/
def pyIntChar (c : Char) : Option ℤ :=
  (decimalDigitZeros.find? (fun z => z ≤ c.toNat && c.toNat ≤ z + 9)).map
    (fun z => (c.toNat : ℤ) - (z : ℤ))

/-- Source `_indhex_to_numeric(letterval)`: `int(letterval)` succeeds on
any Unicode decimal digit (see `pyIntChar`); otherwise
`alphas.index(letterval) + 10`, which raises ValueError (`none`) when the
character is not an uppercase `A`–`F`. -/
def _indhex_to_numeric (letterval : Char) : Option ℤ :=
  match pyIntChar letterval with
  | some v => some v
  | none => (alphas.indexOf? letterval).map (fun i => (i : ℤ) + 10)

/-- Source `_hexval_to_colorval(hval)`: `hval[0]` and `hval[1]` raise
IndexError on a short string; the value is `16 * high + low`. -/
def _hexval_to_colorval (hval : List Char) : Option ℤ :=
  (hval.get? 0).bind fun c0 =>
    (_indhex_to_numeric c0).bind fun d =>
      (hval.get? 1).bind fun c1 =>
        (_indhex_to_numeric c1).bind fun r =>
          some (d * 16 + r)

/-- Source `hex_to_rgb(color_code)` on the underlying character list:
`color_code[0]` raises IndexError on the empty string; a leading `'#'` is
stripped; `color_code[i*2:i*2+2]` is Python slicing (never raises, may be
short). -/
def hex_to_rgb_chars (color_code : List Char) : Option (List ℤ) :=
  (color_code.get? 0).bind fun c0 =>
    let code := if c0 = '#' then color_code.drop 1 else color_code
    let separated_hexes := (List.range 3).map (fun i => (code.drop (i * 2)).take 2)
    mapOpt _hexval_to_colorval separated_hexes

/-- Source `hex_to_rgb` on a Python string. -/
def hex_to_rgb (color_code : String) : Option (List ℤ) :=
  hex_to_rgb_chars color_code.data

/-- Source `_scale(start, finish, length, i)` inside `linear_gradient`. -/
def _scale (start finish : ℚ) (length : ℕ) (i : ℕ) : ℚ :=
  let fraction : ℚ := (i : ℚ) / ((length : ℚ) - 1)
  let raynge := finish - start
  start + fraction * raynge

/-- The 765 oversampled colors produced for one consecutive control-point
pair by the inner loop of `linear_gradient` (`nInterpolate = 765`). -/
def segmentColors (start finish : ℚ × ℚ × ℚ) : List (ℚ × ℚ × ℚ) :=
  (List.range 765).map fun index =>
    (_scale start.1 finish.1 765 index,
     _scale start.2.1 finish.2.1 765 index,
     _scale start.2.2 finish.2.2 765 index)

/-- The dense list `allColors` of `linear_gradient`: the concatenation of
the per-segment oversampled lists, in order of
`zip(rgbList[:-1], rgbList[1:])`. -/
def allColors (rgbList : List (ℚ × ℚ × ℚ)) : List (ℚ × ℚ × ℚ) :=
  (rgbList.dropLast.zip (rgbList.drop 1)).flatMap fun p => segmentColors p.1 p.2

/-- Source `linear_gradient(rgbList, nColors)`.  The source's `(r, g, b)`
tuples are modelled as triples.  `allColors[index]` is in range for every
input considered by the claims (an out-of-range access, an IndexError in
Python, is modelled by a `(0, 0, 0)` default). -/
def linear_gradient (rgbList : List (ℚ × ℚ × ℚ)) (nColors : ℕ) : List (ℚ × ℚ × ℚ) :=
  let all := allColors rgbList
  (List.range nColors).map fun (counter : ℕ) =>
    let fraction : ℚ := (counter : ℚ) / ((nColors : ℚ) - 1)
    let index := (pyint (fraction * ((all.length : ℚ) - 1))).toNat
    all.getD index (0, 0, 0)

/-- Source `maximum_n = 253` in `color_brewer`. -/
def maximum_n : ℕ := 253

/-- The fixed scheme catalog of `color_brewer`, verbatim. -/
def schemes : List (String × List String) :=
  [("BuGn", ["#EDF8FB", "#CCECE6", "#CCECE6", "#66C2A4", "#41AE76",
             "#238B45", "#005824"]),
   ("BuPu", ["#EDF8FB", "#BFD3E6", "#9EBCDA", "#8C96C6", "#8C6BB1",
             "#88419D", "#6E016B"]),
   ("GnBu", ["#F0F9E8", "#CCEBC5", "#A8DDB5", "#7BCCC4", "#4EB3D3",
             "#2B8CBE", "#08589E"]),
   ("OrRd", ["#FEF0D9", "#FDD49E", "#FDBB84", "#FC8D59", "#EF6548",
             "#D7301F", "#990000"]),
   ("PuBu", ["#F1EEF6", "#D0D1E6", "#A6BDDB", "#74A9CF", "#3690C0",
             "#0570B0", "#034E7B"]),
   ("PuBuGn", ["#F6EFF7", "#D0D1E6", "#A6BDDB", "#67A9CF", "#3690C0",
               "#02818A", "#016450"]),
   ("PuRd", ["#F1EEF6", "#D4B9DA", "#C994C7", "#DF65B0", "#E7298A",
             "#CE1256", "#91003F"]),
   ("RdPu", ["#FEEBE2", "#FCC5C0", "#FA9FB5", "#F768A1", "#DD3497",
             "#AE017E", "#7A0177"]),
   ("YlGn", ["#FFFFCC", "#D9F0A3", "#ADDD8E", "#78C679", "#41AB5D",
             "#238443", "#005A32"]),
   ("YlGnBu", ["#FFFFCC", "#C7E9B4", "#7FCDBB", "#41B6C4", "#1D91C0",
               "#225EA8", "#0C2C84"]),
   ("YlOrBr", ["#FFFFD4", "#FEE391", "#FEC44F", "#FE9929", "#EC7014",
               "#CC4C02", "#8C2D04"]),
   ("YlOrRd", ["#FFFFB2", "#FED976", "#FEB24C", "#FD8D3C", "#FC4E2A",
               "#E31A1C", "#B10026"])]

/-- A decoded 3-channel list viewed as an rgb triple (every palette entry
of the fixed catalog decodes to exactly 3 channels). -/
def listToTriple : List ℤ → Option (ℚ × ℚ × ℚ)
  | [r, g, b] => some ((r : ℚ), (g : ℚ), (b : ℚ))
  | _ => none

/-- Source `color_brewer(color_code, n)`.  The `raise ValueError` is the
`Except.error` case; the `.error` branches after a successful lookup model
a Python crash inside the comprehensions and are proved unreachable. -/
def color_brewer (color_code : String) (n : ℕ) : Except String (Option (List String)) :=
  if n > maximum_n then
    Except.error "The maximum number of colors in a ColorBrewer sequential color series is 253"
  else if n > 6 then
    match schemes.lookup color_code with
    | none => Except.ok none
    | some baseScheme =>
      match mapOpt (fun h => (hex_to_rgb h).bind listToTriple) baseScheme with
      | none => Except.error "IndexError"
      | some rgb_color_scheme =>
        match mapOpt (fun c => rgb_to_hex [c.1, c.2.1, c.2.2])
            (linear_gradient rgb_color_scheme n) with
        | none => Except.error "IndexError"
        | some color_scheme => Except.ok (some color_scheme)
  else Except.ok (schemes.lookup color_code)

/-- Floor of the base-2 logarithm of a positive rational: the unique `z`
with `2 ^ z ≤ q < 2 ^ (z + 1)`. -/
def qIlog2 (q : ℚ) : ℤ :=
  if 1 ≤ q then (Nat.log 2 ⌊q⌋.toNat : ℤ) else -(Nat.clog 2 ⌈q⁻¹⌉.toNat : ℤ)

/-- Binary64 rounding (round to nearest, ties to even) of a positive
rational, `0` for a nonpositive one.  Overflow and subnormals are not
modelled; they cannot arise at the magnitudes this development feeds in. -/
def fl64 (q : ℚ) : ℚ :=
  if q ≤ 0 then 0
  else
    let e : ℤ := qIlog2 q - 52
    let s : ℚ := q / 2 ^ e
    let n : ℤ := ⌊s⌋
    let r : ℚ := s - n
    let m : ℤ := if r < 1/2 then n else if 1/2 < r then n + 1 else if 2 ∣ n then n else n + 1
    (m : ℚ) * 2 ^ e

/-- Source `legend_scaler(legend_values, max_labels)`.  The blank `''` is
modelled as `none`, a kept value `legend_values[i]` as `legend_values.get? i`
(the index `i < len(legend_values)` is always in range).  The `divisor` is
the binary64 value of `len(legend_values)/max_labels`. -/
def legend_scaler (legend_values : List α) (max_labels : ℕ := 10) : List (Option α) :=
  if legend_values.length < max_labels then legend_values.map some
  else
    let divisor : ℚ := fl64 ((legend_values.length : ℚ) / (max_labels : ℚ))
    (List.range legend_values.length).map fun (i : ℕ) =>
      if i ≠ 0 ∧ pymod (i : ℚ) divisor = 0 then legend_values.get? i else none

/-- The spec's reference definition of the legend scaler, for comparison
with the source's `legend_scaler`: same keep/blank rule, but with
`divisor = L / max_labels` as exact real-valued division. -/
def legend_scaler_spec (legend_values : List α) (max_labels : ℕ := 10) : List (Option α) :=
  if legend_values.length < max_labels then legend_values.map some
  else
    let divisor : ℚ := (legend_values.length : ℚ) / (max_labels : ℚ)
    (List.range legend_values.length).map fun (i : ℕ) =>
      if i ≠ 0 ∧ pymod (i : ℚ) divisor = 0 then legend_values.get? i else none

/-- Floor of the base-10 logarithm of a positive rational
(`math.floor(math.log10 x)` in exact arithmetic): the unique `z` with
`10 ^ z ≤ x < 10 ^ (z + 1)`. -/
def intLog10 (x : ℚ) : ℤ :=
  if 1 ≤ x then (Nat.log 10 ⌊x⌋.toNat : ℤ) else -(Nat.clog 10 ⌈x⁻¹⌉.toNat : ℤ)

/-- Source `split_six.base(x)`: for `x > 0`, round `x` to the nearest
(half-to-even, Python 3 `round`) multiple of `10 ^ floor(log10 x)`;
`0` otherwise.  Floats are modelled as exact rationals. -/
def base (x : ℚ) : ℚ :=
  if 0 < x then
    let b : ℚ := 10 ^ intLog10 x
    (pyround (x / b) : ℚ) * b
  else 0

/-- A hex color string is well formed when it is `'#'` followed by exactly
6 characters drawn from `0`–`9`, `A`–`F`. -/
def hexDigits : List Char :=
  ['0', '1', '2', '3', '4', '5', '6', '7', '8', '9', 'A', 'B', 'C', 'D', 'E', 'F']

/-- Well-formedness of a hex color character list. -/
def wellFormedHexChars (s : List Char) : Bool :=
  match s with
  | '#' :: rest => rest.length == 6 && rest.all (fun c => c ∈ hexDigits)
  | _ => false

/-- Well-formedness of a hex color string. -/
def wellFormedHex (s : String) : Bool :=
  wellFormedHexChars s.data

/-- The character set accepted by `_indhex_to_numeric`: any Unicode
decimal digit (a character Python `int` accepts) or an uppercase
`A`–`F`. -/
def isSourceHexChar (c : Char) : Bool :=
  (pyIntChar c).isSome || c ∈ alphas

/-- Channel-wise containment of an rgb triple in the 8-bit range. -/
def inRGBRange (c : ℚ × ℚ × ℚ) : Prop :=
  0 ≤ c.1 ∧ c.1 ≤ 255 ∧ 0 ≤ c.2.1 ∧ c.2.1 ≤ 255 ∧ 0 ≤ c.2.2 ∧ c.2.2 ≤ 255

instance {ε α : Type} [DecidableEq ε] [DecidableEq α] : DecidableEq (Except ε α) := fun x y =>
  match x, y with
  | Except.error a, Except.error b =>
    if h : a = b then isTrue (by rw [h]) else isFalse (by simp [h])
  | Except.error _, Except.ok _ => isFalse (by simp)
  | Except.ok _, Except.error _ => isFalse (by simp)
  | Except.ok a, Except.ok b =>
    if h : a = b then isTrue (by rw [h]) else isFalse (by simp [h])

/-- Strip an optional leading `'#'` (the claim's vocabulary for the
stripping step of `hex_to_rgb`). -/
def stripHash (s : List Char) : List Char :=
  if s.head? = some '#' then s.drop 1 else s

@[simp] theorem mapOpt_nil (f : α → Option β) : mapOpt f [] = some [] := rfl

@[simp] theorem mapOpt_cons (f : α → Option β) (a : α) (l : List α) :
    mapOpt f (a :: l) =
      (f a).bind (fun b => (mapOpt f l).bind (fun bs => some (b :: bs))) := rfl

theorem mapOpt_isSome_iff {f : α → Option β} {l : List α} :
    (mapOpt f l).isSome ↔ ∀ a ∈ l, (f a).isSome := by
  induction l with
  | nil => simp
  | cons a l ih =>
    simp only [mapOpt_cons, List.mem_cons]
    cases hfa : f a with
    | none => simp [hfa]
    | some b =>
      cases hml : mapOpt f l with
      | none => simp_all
      | some bs => simp_all

theorem mapOpt_length {f : α → Option β} :
    ∀ {l : List α} {l' : List β}, mapOpt f l = some l' → l'.length = l.length := by
  intro l
  induction l with
  | nil => intro l' h; simp only [mapOpt_nil, Option.some.injEq] at h; simp [← h]
  | cons a l ih =>
    intro l' h
    simp only [mapOpt_cons, Option.bind_eq_some, Option.some.injEq] at h
    obtain ⟨b, _, bs, hbs, rfl⟩ := h
    simp [ih hbs]

theorem mem_of_mapOpt {f : α → Option β} :
    ∀ {l : List α} {l' : List β}, mapOpt f l = some l' → ∀ b ∈ l', ∃ a ∈ l, f a = some b := by
  intro l
  induction l with
  | nil => intro l' h; simp only [mapOpt_nil, Option.some.injEq] at h; simp [← h]
  | cons a l ih =>
    intro l' h
    simp only [mapOpt_cons, Option.bind_eq_some, Option.some.injEq] at h
    obtain ⟨b, hb, bs, hbs, rfl⟩ := h
    intro c hc
    rcases List.mem_cons.mp hc with rfl | hc
    · exact ⟨a, List.mem_cons_self a l, hb⟩
    · obtain ⟨a2, ha2, hfa2⟩ := ih hbs c hc
      exact ⟨a2, List.mem_cons_of_mem _ ha2, hfa2⟩

theorem nibble_spec : ∀ d : ℕ, d < 16 →
    _numeric_to_indhex (d : ℤ) = some [hexDigits.getD d ' '] ∧
    _indhex_to_numeric (hexDigits.getD d ' ') = some (d : ℤ) ∧
    hexDigits.getD d ' ' ∈ hexDigits := by decide

theorem hexDigit_spec : ∀ c ∈ hexDigits,
    _indhex_to_numeric c = some ((hexDigits.indexOf c : ℕ) : ℤ) ∧
    _numeric_to_indhex ((hexDigits.indexOf c : ℕ) : ℤ) = some [c] ∧
    hexDigits.indexOf c < 16 := by decide
theorem pyint_natCast_div_sixteen (r : ℕ) : pyint ((r : ℚ) / 16) = ((r / 16 : ℕ) : ℤ) := by
  have h0 : (0 : ℚ) ≤ (r : ℚ) / 16 := by positivity
  rw [pyint, if_pos h0]
  have : ((r : ℚ) / 16) = ((r : ℤ) : ℚ) / ((16 : ℕ) : ℚ) := by push_cast; ring
  rw [this, Rat.floor_intCast_div_natCast]
  omega

theorem pymod_natCast_sixteen (r : ℕ) : pymod (r : ℚ) 16 = ((r % 16 : ℕ) : ℚ) := by
  rw [pymod]
  have h16 : ((r : ℚ) / 16) = ((r : ℤ) : ℚ) / ((16 : ℕ) : ℚ) := by push_cast; ring
  rw [h16, Rat.floor_intCast_div_natCast]
  have key : ((r : ℤ) / ((16 : ℕ) : ℤ)) = ((r / 16 : ℕ) : ℤ) := by omega
  rw [key, Int.cast_natCast]
  have hdm := congrArg (fun n : ℕ => (n : ℚ)) (Nat.div_add_mod r 16)
  push_cast at hdm
  linarith

theorem pyint_natCast (k : ℕ) : pyint ((k : ℕ) : ℚ) = (k : ℤ) := by
  rw [pyint, if_pos (by positivity)]
  exact_mod_cast Int.floor_natCast k

theorem colorval_nat (r : ℕ) (h : r ≤ 255) :
    _colorval_to_hexval (r : ℚ) =
      some [hexDigits.getD (r / 16) ' ', hexDigits.getD (r % 16) ' '] := by
  have h1 : r / 16 < 16 := by omega
  have h2 : r % 16 < 16 := by omega
  obtain ⟨n1, _, _⟩ := nibble_spec (r / 16) h1
  obtain ⟨n2, _, _⟩ := nibble_spec (r % 16) h2
  rw [_colorval_to_hexval]
  rw [pyint_natCast_div_sixteen, pymod_natCast_sixteen, pyint_natCast]
  simp_all [Option.bind_eq_bind]

theorem hexpair_nibble (d1 d2 : ℕ) (h1 : d1 < 16) (h2 : d2 < 16) :
    _hexval_to_colorval [hexDigits.getD d1 ' ', hexDigits.getD d2 ' '] =
      some ((d1 : ℤ) * 16 + (d2 : ℤ)) := by
  have e1 := (nibble_spec d1 h1).2.1
  have e2 := (nibble_spec d2 h2).2.1
  simp only [_hexval_to_colorval, List.get?_eq_getElem?, List.getElem?_cons_zero,
    List.getElem?_cons_succ, Option.some_bind, e1, e2]

theorem hexpair_decode (a b : Char) (ha : a ∈ hexDigits) (hb : b ∈ hexDigits) :
    _hexval_to_colorval [a, b] =
      some ((hexDigits.indexOf a : ℤ) * 16 + (hexDigits.indexOf b : ℤ)) := by
  obtain ⟨da, db, _⟩ := hexDigit_spec a ha
  obtain ⟨ea, eb, _⟩ := hexDigit_spec b hb
  simp [_hexval_to_colorval, da, ea]

/-- Claim C1: for every RGBColor with integer channels in `[0, 255]`,
decoding the encoding gives back the same triple:
`hex_to_rgb (rgb_to_hex [r, g, b]) = [r, g, b]`. -/
theorem C1_decode_encode_roundtrip (r g b : ℕ) (hr : r ≤ 255) (hg : g ≤ 255) (hb : b ≤ 255) :
    (rgb_to_hex [(r : ℚ), (g : ℚ), (b : ℚ)]).bind hex_to_rgb =
      some [(r : ℤ), (g : ℤ), (b : ℤ)] := by
  have er := colorval_nat r hr
  have eg := colorval_nat g hg
  have eb2 := colorval_nat b hb
  have hmem : ∀ d : ℕ, d < 16 → hexDigits.getD d ' ' ∈ hexDigits := fun d hd => (nibble_spec d hd).2.2
  have hval : ∀ d : ℕ, d < 16 → _indhex_to_numeric (hexDigits.getD d ' ') = some (d : ℤ) :=
    fun d hd => (nibble_spec d hd).2.1
  rw [rgb_to_hex, rgb_to_hex_chars]
  simp only [mapOpt_cons, mapOpt_nil, er, eg, eb2, Option.some_bind, Option.map_some,
    Option.pure_def, List.flatten_cons, List.flatten_nil, List.append_nil, List.cons_append,
    List.nil_append, Option.some_bind]
  simp only [Option.map_some', Option.some_bind, hex_to_rgb]
  show hex_to_rgb_chars ('#' :: [hexDigits.getD (r / 16) ' ', hexDigits.getD (r % 16) ' ',
    hexDigits.getD (g / 16) ' ', hexDigits.getD (g % 16) ' ',
    hexDigits.getD (b / 16) ' ', hexDigits.getD (b % 16) ' ']) = some [(r : ℤ), g, b]
  rw [hex_to_rgb_chars]
  simp only [List.get?_eq_getElem?, List.getElem?_cons_zero, Option.some_bind, if_pos rfl,
    List.drop_succ_cons, List.drop_zero, List.range_succ, List.range_zero, List.map_cons,
    List.map_nil, List.nil_append, List.cons_append, List.take_succ_cons, List.take_zero,
    Nat.reduceMul, Nat.reduceAdd]
  have p1 := hexpair_nibble (r / 16) (r % 16) (by omega) (by omega)
  have p2 := hexpair_nibble (g / 16) (g % 16) (by omega) (by omega)
  have p3 := hexpair_nibble (b / 16) (b % 16) (by omega) (by omega)
  simp only [if_true, List.take_succ_cons, List.take_zero, List.drop_succ_cons, List.drop_zero,
    mapOpt_cons, mapOpt_nil, p1, p2, p3, Option.some_bind, Option.some.injEq, List.cons.injEq,
    and_true]
  omega

theorem getD_indexOf : ∀ x ∈ hexDigits, hexDigits.getD (hexDigits.indexOf x) ' ' = x := by decide

theorem colorval_idx (x y : Char) (hx : x ∈ hexDigits) (hy : y ∈ hexDigits) :
    _colorval_to_hexval (((hexDigits.indexOf x : ℤ) * 16 + (hexDigits.indexOf y : ℤ) : ℤ) : ℚ) =
      some [x, y] := by
  have hdx : hexDigits.indexOf x < 16 := (hexDigit_spec x hx).2.2
  have hdy : hexDigits.indexOf y < 16 := (hexDigit_spec y hy).2.2
  have hcast : (((hexDigits.indexOf x : ℤ) * 16 + (hexDigits.indexOf y : ℤ) : ℤ) : ℚ) =
      ((hexDigits.indexOf x * 16 + hexDigits.indexOf y : ℕ) : ℚ) := by push_cast; ring
  rw [hcast, colorval_nat _ (by omega)]
  have h1 : (hexDigits.indexOf x * 16 + hexDigits.indexOf y) / 16 = hexDigits.indexOf x := by omega
  have h2 : (hexDigits.indexOf x * 16 + hexDigits.indexOf y) % 16 = hexDigits.indexOf y := by omega
  rw [h1, h2, getD_indexOf x hx, getD_indexOf y hy]

theorem hex_to_rgb_chars_six (a b c d e f : Char) (ha : a ∈ hexDigits) (hb : b ∈ hexDigits)
    (hc : c ∈ hexDigits) (hd : d ∈ hexDigits) (he : e ∈ hexDigits) (hf : f ∈ hexDigits) :
    hex_to_rgb_chars ('#' :: [a, b, c, d, e, f]) =
      some [(hexDigits.indexOf a : ℤ) * 16 + (hexDigits.indexOf b : ℤ),
            (hexDigits.indexOf c : ℤ) * 16 + (hexDigits.indexOf d : ℤ),
            (hexDigits.indexOf e : ℤ) * 16 + (hexDigits.indexOf f : ℤ)] := by
  rw [hex_to_rgb_chars]
  simp only [List.get?_eq_getElem?, List.getElem?_cons_zero, Option.some_bind, if_pos rfl,
    List.drop_succ_cons, List.drop_zero, List.range_succ, List.range_zero, List.map_cons,
    List.map_nil, List.nil_append, List.cons_append, List.take_succ_cons, List.take_zero,
    Nat.reduceMul, Nat.reduceAdd, if_true]
  simp only [mapOpt_cons, mapOpt_nil, hexpair_decode a b ha hb, hexpair_decode c d hc hd,
    hexpair_decode e f he hf, Option.some_bind]

/-- Claim C2, amended: for a valid HexColor written with uppercase hex
digits (`'#'` followed by exactly 6 characters from `0`–`9`, `A`–`F`),
re-encoding the decoded value yields the input back unchanged.  The
original claim's "decode succeeds on lowercase hex digits" is false on the
code (see the counterexample): `alphas.index` raises ValueError on a
lowercase letter, so only uppercase input round-trips. -/
theorem C2_encode_decode_uppercase (cs : List Char) (hlen : cs.length = 6) (hhex : ∀ c ∈ cs, c ∈ hexDigits) :
    ∃ rgb : List ℤ, hex_to_rgb (String.mk ('#' :: cs)) = some rgb ∧
      rgb_to_hex (rgb.map (Int.cast : ℤ → ℚ)) = some (String.mk ('#' :: cs)) := by
  rcases cs with _ | ⟨a, _ | ⟨b, _ | ⟨c, _ | ⟨d, _ | ⟨e, _ | ⟨f, _ | ⟨g, t⟩⟩⟩⟩⟩⟩⟩ <;>
    (try simp only [List.length_cons, List.length_nil] at hlen) <;> try omega
  have ha := hhex a (by simp)
  have hb := hhex b (by simp)
  have hc := hhex c (by simp)
  have hd := hhex d (by simp)
  have he := hhex e (by simp)
  have hf := hhex f (by simp)
  refine ⟨[(hexDigits.indexOf a : ℤ) * 16 + (hexDigits.indexOf b : ℤ),
           (hexDigits.indexOf c : ℤ) * 16 + (hexDigits.indexOf d : ℤ),
           (hexDigits.indexOf e : ℤ) * 16 + (hexDigits.indexOf f : ℤ)], ?_, ?_⟩
  · rw [hex_to_rgb]
    exact hex_to_rgb_chars_six a b c d e f ha hb hc hd he hf
  · rw [rgb_to_hex, rgb_to_hex_chars]
    simp only [List.map_cons, List.map_nil]
    simp only [mapOpt_cons, mapOpt_nil, colorval_idx a b ha hb, colorval_idx c d hc hd,
      colorval_idx e f he hf, Option.some_bind, List.flatten_cons, List.flatten_nil,
      List.append_nil, List.cons_append, List.nil_append, Option.map_some']

theorem indhex_isSome (c : Char) : (_indhex_to_numeric c).isSome = isSourceHexChar c := by
  rw [_indhex_to_numeric, isSourceHexChar]
  cases h : pyIntChar c with
  | some v => simp
  | none =>
    simp only [Option.isSome_none, Bool.false_or]
    cases h2 : alphas.indexOf? c with
    | none =>
      have hm : c ∉ alphas := fun hmem => (List.indexOf?_eq_none_iff.mp h2) c hmem (by simp)
      simp [h2, hm]
    | some i =>
      have hm : c ∈ alphas := by
        by_contra hmem
        rw [List.indexOf?_eq_none_iff.mpr
          (fun x hx hbe => hmem (by rwa [eq_of_beq hbe] at hx))] at h2
        cases h2
      simp [h2, hm]

theorem hexval_isSome (h : List Char) :
    (_hexval_to_colorval h).isSome = true ↔
      (∃ x, h.get? 0 = some x ∧ isSourceHexChar x = true) ∧
      (∃ y, h.get? 1 = some y ∧ isSourceHexChar y = true) := by
  rw [_hexval_to_colorval]
  cases h0 : h.get? 0 with
  | none => simp [h0]
  | some x =>
    cases hx : _indhex_to_numeric x with
    | none =>
      have hxs : isSourceHexChar x = false := by rw [← indhex_isSome, hx]; rfl
      simp [h0, hx, hxs]
    | some vx =>
      have hxs : isSourceHexChar x = true := by rw [← indhex_isSome, hx]; rfl
      cases h1 : h.get? 1 with
      | none => simp [h0, hx, h1, hxs]
      | some y =>
        cases hy : _indhex_to_numeric y with
        | none =>
          have hys : isSourceHexChar y = false := by rw [← indhex_isSome, hy]; rfl
          simp [h0, hx, h1, hy, hxs, hys]
        | some vy =>
          have hys : isSourceHexChar y = true := by rw [← indhex_isSome, hy]; rfl
          simp [h0, hx, h1, hy, hxs, hys]

theorem hexval_pair_isSome (l : List Char) (k : ℕ) :
    (_hexval_to_colorval ((l.drop k).take 2)).isSome = true ↔
      (∃ x, l.get? k = some x ∧ isSourceHexChar x = true) ∧
      (∃ y, l.get? (k + 1) = some y ∧ isSourceHexChar y = true) := by
  rw [hexval_isSome]
  have e0 : ((l.drop k).take 2).get? 0 = l.get? k := by
    rw [List.get?_eq_getElem?, List.get?_eq_getElem?,
      List.getElem?_take_of_lt (by omega : (0 : ℕ) < 2), List.getElem?_drop]
    simp
  have e1 : ((l.drop k).take 2).get? 1 = l.get? (k + 1) := by
    rw [List.get?_eq_getElem?, List.get?_eq_getElem?,
      List.getElem?_take_of_lt (by omega : (1 : ℕ) < 2), List.getElem?_drop]
  rw [e0, e1]

theorem hexval_pair0_isSome (l : List Char) :
    (_hexval_to_colorval (l.take 2)).isSome = true ↔
      (∃ x, l.get? 0 = some x ∧ isSourceHexChar x = true) ∧
      (∃ y, l.get? 1 = some y ∧ isSourceHexChar y = true) := by
  have h := hexval_pair_isSome l 0
  rwa [List.drop_zero] at h

/-- Claim C3, amended: `hex_to_rgb` fails exactly when, after stripping an
optional leading `'#'`, the input does not START with 6 accepted
characters — a Unicode decimal digit (anything Python `int` accepts,
`'0'`–`'9'` included) or an uppercase `A`–`F`; the untouched empty string
also fails.  Contrary to the original claim, an input longer than 6 such
characters after stripping does NOT fail: the extra characters are ignored
(see the counterexample). -/
theorem C3_decode_failure_characterization (s : List Char) :
    (hex_to_rgb_chars s).isSome = true ↔
      s ≠ [] ∧ ∀ k < 6, ∃ c, (stripHash s).get? k = some c ∧ isSourceHexChar c = true := by
  cases s with
  | nil => simp [hex_to_rgb_chars, stripHash]
  | cons c0 rest =>
    rw [hex_to_rgb_chars]
    simp only [List.get?_eq_getElem?, List.getElem?_cons_zero, Option.some_bind]
    have hstrip : stripHash (c0 :: rest) = if c0 = '#' then rest else c0 :: rest := by
      rw [stripHash]
      simp only [List.head?_cons, Option.some.injEq]
      by_cases hc : c0 = '#' <;> simp [hc]
    rw [hstrip]
    simp only [List.drop_succ_cons, List.drop_zero, List.range_succ, List.range_zero,
      List.map_cons, List.map_nil, List.nil_append, List.cons_append, Nat.reduceMul,
      Nat.reduceAdd, Nat.zero_mul]
    rw [mapOpt_isSome_iff]
    simp only [List.mem_cons, List.mem_singleton, List.not_mem_nil, or_false,
      forall_eq_or_imp, forall_eq]
    rw [hexval_pair0_isSome, hexval_pair_isSome _ 2, hexval_pair_isSome _ 4]
    simp only [List.get?_eq_getElem?]
    constructor
    · rintro ⟨⟨h0, h1⟩, ⟨h2, h3⟩, ⟨h4, h5⟩⟩
      refine ⟨by simp, ?_⟩
      intro k hk
      interval_cases k
      exacts [h0, h1, h2, h3, h4, h5]
    · rintro ⟨-, H⟩
      exact ⟨⟨H 0 (by omega), H 1 (by omega)⟩, ⟨H 2 (by omega), H 3 (by omega)⟩,
        ⟨H 4 (by omega), H 5 (by omega)⟩⟩

/-- Claim C2, counterexample: decoding fails on lowercase hex digits
(`ValueError` in the source, `none` here), so `encode (decode h)` cannot
equal `uppercase h` for the valid lowercase HexColor `"#aabbcc"`. -/
theorem C2_counterexample_lowercase : hex_to_rgb "#aabbcc" = none := by decide

/-- Claim C2, witness for the amended round trip at `"#AABB05"`. -/
theorem C2_encode_decode_uppercase_witness :
    (['A', 'A', 'B', 'B', '0', '5'] : List Char).length = 6 ∧
      ∃ rgb : List ℤ,
        hex_to_rgb (String.mk ('#' :: ['A', 'A', 'B', 'B', '0', '5'])) = some rgb ∧
          rgb_to_hex (rgb.map (Int.cast : ℤ → ℚ)) =
            some (String.mk ('#' :: ['A', 'A', 'B', 'B', '0', '5'])) :=
  ⟨by decide, C2_encode_decode_uppercase ['A', 'A', 'B', 'B', '0', '5'] (by decide) (by decide)⟩

/-- Claim C1, witness at the channel triple `(1, 171, 205)`. -/
theorem C1_decode_encode_roundtrip_witness :
    (1 : ℕ) ≤ 255 ∧
      (rgb_to_hex [((1 : ℕ) : ℚ), ((171 : ℕ) : ℚ), ((205 : ℕ) : ℚ)]).bind hex_to_rgb =
        some [((1 : ℕ) : ℤ), ((171 : ℕ) : ℤ), ((205 : ℕ) : ℤ)] :=
  ⟨by decide, C1_decode_encode_roundtrip 1 171 205 (by decide) (by decide) (by decide)⟩

/-- Claim C3, counterexample: an input longer than 6 hex characters after
stripping succeeds (the claim says every such input fails): the source
slices exactly three character pairs and ignores the rest. -/
theorem C3_counterexample_long_input : hex_to_rgb "#AABBCCDD" = some [170, 187, 204] := by
  decide

/-- The decoder accepts non-ASCII Unicode decimal digits, exactly as
CPython `int` does: ARABIC-INDIC DIGIT THREE (code point 1635, in the run
starting at 1632) has decimal value 3, so each channel decodes to
`3 * 16 + 3 = 51`. -/
theorem hex_to_rgb_unicode_digits : hex_to_rgb "#٣٣٣٣٣٣" = some [51, 51, 51] := by
  decide

/-- Claim C7: for `n ≤ 6` the catalog's base palette is returned as-is
(no truncation to `n`); in particular `color_brewer "BuGn" 6` is the
literal 7-entry BuGn palette, and an unknown name yields `none`. -/
theorem C7_scheme_passthrough :
    (∀ (name : String) (n : ℕ), n ≤ 6 →
        color_brewer name n = Except.ok (schemes.lookup name)) ∧
      color_brewer "BuGn" 6 =
        Except.ok (some ["#EDF8FB", "#CCECE6", "#CCECE6", "#66C2A4", "#41AE76",
          "#238B45", "#005824"]) ∧
      color_brewer "NotAScheme" 6 = Except.ok none := by
  refine ⟨?_, by decide, by decide⟩
  intro name n hn
  rw [color_brewer]
  rw [if_neg (by simp only [maximum_n]; omega : ¬n > maximum_n), if_neg (by omega : ¬n > 6)]

/-- Claim C7, witness for the general pass-through conjunct at
`("PuBu", 5)`. -/
theorem C7_scheme_passthrough_witness :
    (5 : ℕ) ≤ 6 ∧ color_brewer "PuBu" 5 = Except.ok (schemes.lookup "PuBu") :=
  ⟨by decide, C7_scheme_passthrough.1 "PuBu" 5 (by decide)⟩
theorem scale_zero (s f : ℚ) : _scale s f 765 0 = s := by
  simp [_scale]

theorem scale_last (s f : ℚ) : _scale s f 765 764 = f := by
  rw [_scale]
  norm_num

theorem length_segmentColors (a b : ℚ × ℚ × ℚ) : (segmentColors a b).length = 765 := by
  simp [segmentColors]

theorem allColors_cons (a b : ℚ × ℚ × ℚ) (t : List (ℚ × ℚ × ℚ)) :
    allColors (a :: b :: t) = segmentColors a b ++ allColors (b :: t) := by
  rw [allColors, allColors, List.dropLast_cons₂]
  simp [List.zip_cons_cons]

theorem length_allColors (ps : List (ℚ × ℚ × ℚ)) :
    (allColors ps).length = 765 * (ps.length - 1) := by
  induction ps with
  | nil => rfl
  | cons a t ih =>
    cases t with
    | nil => rfl
    | cons b t2 =>
      rw [allColors_cons, List.length_append, ih, length_segmentColors]
      simp only [List.length_cons]
      omega

theorem segment_head (a b : ℚ × ℚ × ℚ) : (segmentColors a b).get? 0 = some a := by
  rw [segmentColors, List.get?_eq_getElem?, List.getElem?_map,
    List.getElem?_range (by omega : 0 < 765)]
  simp [scale_zero]

theorem segment_getLast (a b : ℚ × ℚ × ℚ) : (segmentColors a b).getLast? = some b := by
  rw [List.getLast?_eq_getElem?, length_segmentColors]
  rw [segmentColors, List.getElem?_map, List.getElem?_range (by omega : 764 < 765)]
  simp [scale_last]

theorem allColors_head (a b : ℚ × ℚ × ℚ) (t : List (ℚ × ℚ × ℚ)) :
    (allColors (a :: b :: t)).get? 0 = some a := by
  rw [allColors_cons, List.get?_eq_getElem?,
    List.getElem?_append_left (by rw [length_segmentColors]; omega)]
  rw [← List.get?_eq_getElem?, segment_head]

theorem allColors_getLast : ∀ (ps : List (ℚ × ℚ × ℚ)), 2 ≤ ps.length →
    (allColors ps).getLast? = ps.getLast? := by
  intro ps
  induction ps with
  | nil => intro h; simp at h
  | cons a t ih =>
    cases t with
    | nil => intro h; simp at h
    | cons b t2 =>
      intro _
      rw [allColors_cons]
      cases t2 with
      | nil =>
        have h0 : allColors [b] = [] := rfl
        rw [h0, List.append_nil, segment_getLast]
        rfl
      | cons c t3 =>
        rw [List.getLast?_append]
        have h2 : 2 ≤ (b :: c :: t3).length := by simp
        rw [ih h2]
        obtain ⟨x, hx⟩ : ∃ x, (b :: c :: t3).getLast? = some x :=
          Option.isSome_iff_exists.mp (List.getLast?_isSome.mpr (by simp))
        rw [hx, Option.or_some]
        rw [List.getLast?_cons_cons] at hx ⊢
        rw [← hx, List.getLast?_cons_cons]

theorem pyint_zero : pyint 0 = 0 := by simp [pyint]

/-- Claim C4: for at least 2 control points and any target count `n >= 2`,
the gradient's first output equals the first control point and its
`(n-1)`-st output equals the last control point (exactly, in the rational
model of the float arithmetic: both boundary samples are computed without
rounding). -/
theorem C4_gradient_boundary (ps : List (ℚ × ℚ × ℚ)) (n : ℕ) (hp : 2 ≤ ps.length) (hn : 2 ≤ n) :
    (linear_gradient ps n).get? 0 = ps.get? 0 ∧
      (linear_gradient ps n).get? (n - 1) = ps.getLast? := by
  obtain ⟨a, b, t, rfl⟩ : ∃ a b t, ps = a :: b :: t := by
    match ps, hp with
    | a :: b :: t, _ => exact ⟨a, b, t, rfl⟩
  have hlen : (allColors (a :: b :: t)).length = 765 * (t.length + 1) := by
    rw [length_allColors]; simp
  have hpos : 0 < (allColors (a :: b :: t)).length := by omega
  constructor
  · rw [linear_gradient, List.get?_eq_getElem?, List.getElem?_map,
      List.getElem?_range (by omega : 0 < n)]
    simp only [Option.map_some']
    simp only [Nat.cast_zero, zero_div, zero_mul, pyint_zero, Int.toNat_zero]
    rw [List.getD_eq_getElem _ _ hpos]
    have h0 := allColors_head a b t
    rw [List.get?_eq_getElem?, List.getElem?_eq_getElem hpos] at h0
    simp only [Option.some.injEq] at h0
    rw [h0]
    rfl
  · rw [linear_gradient, List.get?_eq_getElem?, List.getElem?_map,
      List.getElem?_range (by omega : n - 1 < n)]
    simp only [Option.map_some']
    have hfrac : ((n - 1 : ℕ) : ℚ) / ((n : ℚ) - 1) = 1 := by
      rw [Nat.cast_sub (by omega : 1 ≤ n), Nat.cast_one]
      apply div_self
      have : (2 : ℚ) ≤ (n : ℚ) := by exact_mod_cast hn
      linarith
    rw [hfrac, one_mul]
    have hidx : ((allColors (a :: b :: t)).length : ℚ) - 1 =
        (((allColors (a :: b :: t)).length - 1 : ℕ) : ℚ) := by
      rw [Nat.cast_sub (by omega : 1 ≤ (allColors (a :: b :: t)).length), Nat.cast_one]
    rw [hidx, pyint_natCast, Int.toNat_natCast]
    have hlt : (allColors (a :: b :: t)).length - 1 < (allColors (a :: b :: t)).length := by omega
    rw [List.getD_eq_getElem _ _ hlt]
    have hl := allColors_getLast (a :: b :: t) (by simp)
    rw [List.getLast?_eq_getElem?, List.getElem?_eq_getElem hlt] at hl
    rw [← hl]

/-- Claim C5: for at least 2 control points and any target count `n >= 2`,
`linear_gradient` returns a list of length exactly `n`. -/
theorem C5_gradient_length (ps : List (ℚ × ℚ × ℚ)) (n : ℕ) (_hp : 2 ≤ ps.length)
    (_hn : 2 ≤ n) :
    (linear_gradient ps n).length = n := by
  rw [linear_gradient, List.length_map, List.length_range]

/-- Claim C4, witness at `[(0,0,0), (255,0,0)]` and `n = 2`. -/
theorem C4_gradient_boundary_witness :
    2 ≤ ([((0 : ℚ), (0 : ℚ), (0 : ℚ)), ((255 : ℚ), (0 : ℚ), (0 : ℚ))] : List (ℚ × ℚ × ℚ)).length ∧
      ((linear_gradient [((0 : ℚ), (0 : ℚ), (0 : ℚ)), ((255 : ℚ), (0 : ℚ), (0 : ℚ))] 2).get? 0 =
          ([((0 : ℚ), (0 : ℚ), (0 : ℚ)), ((255 : ℚ), (0 : ℚ), (0 : ℚ))] :
            List (ℚ × ℚ × ℚ)).get? 0 ∧
        (linear_gradient [((0 : ℚ), (0 : ℚ), (0 : ℚ)), ((255 : ℚ), (0 : ℚ), (0 : ℚ))] 2).get?
            (2 - 1) =
          ([((0 : ℚ), (0 : ℚ), (0 : ℚ)), ((255 : ℚ), (0 : ℚ), (0 : ℚ))] :
            List (ℚ × ℚ × ℚ)).getLast?) :=
  ⟨by decide, C4_gradient_boundary _ 2 (by decide) (by decide)⟩

/-- Claim C5, witness at `[(0,0,0), (255,0,0)]` and `n = 7`. -/
theorem C5_gradient_length_witness :
    2 ≤ ([((0 : ℚ), (0 : ℚ), (0 : ℚ)), ((255 : ℚ), (0 : ℚ), (0 : ℚ))] : List (ℚ × ℚ × ℚ)).length ∧
      (linear_gradient [((0 : ℚ), (0 : ℚ), (0 : ℚ)), ((255 : ℚ), (0 : ℚ), (0 : ℚ))] 7).length = 7 :=
  ⟨by decide, C5_gradient_length _ 7 (by decide) (by decide)⟩
theorem fl64_six_fifths : fl64 ((12 : ℚ) / 10) = 5404319552844595 / 4503599627370496 := by
  have h1 : ((12 : ℚ) / 10) = 6 / 5 := by norm_num
  rw [h1]
  have hq : qIlog2 ((6 : ℚ) / 5) = 0 := by
    rw [qIlog2, if_pos (by norm_num)]
    have hf : ⌊(6 : ℚ) / 5⌋ = 1 := by norm_num
    rw [hf]
    simp [Nat.log_one_right]
  rw [fl64, if_neg (by norm_num), hq]
  norm_num

theorem fl64_two : fl64 (2 : ℚ) = 2 := by
  have hq : qIlog2 (2 : ℚ) = 1 := by
    rw [qIlog2, if_pos (by norm_num)]
    have hf : ⌊(2 : ℚ)⌋ = 2 := by norm_num
    rw [hf]
    have hl : Nat.log 2 (Int.toNat 2) = 1 :=
      Nat.log_eq_of_pow_le_of_lt_pow (by norm_num) (by norm_num)
    rw [hl]
    norm_num
  rw [fl64, if_neg (by norm_num), hq]
  norm_num

/-- Claim C8, amended: `legend_scaler` matches the spec's reference
definition (keep `values[i]` exactly when `i != 0` and `i mod divisor == 0`,
blank otherwise, length preserved, short inputs returned unchanged)
whenever the divisor `L / max_labels` is exactly representable in binary64
— in particular whenever `max_labels` divides `L` times a power of two.
In general the code tests `i mod divisor == 0` against the binary64
rounding of `L / max_labels`, not against the exact real quotient, and the
two disagree (see the counterexample at `L = 12`, `max_labels = 10`). -/
theorem C8_legend_scaler_matches_spec {α : Type} (legend_values : List α)
    (max_labels : ℕ) (_hpos : 0 < max_labels)
    (hex : fl64 ((legend_values.length : ℚ) / (max_labels : ℚ)) =
      (legend_values.length : ℚ) / (max_labels : ℚ)) :
    legend_scaler legend_values max_labels = legend_scaler_spec legend_values max_labels := by
  rw [legend_scaler, legend_scaler_spec, hex]

theorem legend_code_at6 : (legend_scaler (List.range 12) 10).get? 6 = some none := by
  rw [legend_scaler, if_neg (by simp)]
  simp only [List.length_range]
  rw [List.get?_eq_getElem?, List.getElem?_map, List.getElem?_range (by omega : 6 < 12)]
  simp only [Option.map_some']
  rw [if_neg]
  intro ⟨h1, h2⟩
  have hc : ((12 : ℕ) : ℚ) / ((10 : ℕ) : ℚ) = (12 : ℚ) / 10 := by push_cast; ring
  rw [hc, fl64_six_fifths] at h2
  rw [pymod] at h2
  have hfl : ⌊((6 : ℕ) : ℚ) / (5404319552844595 / 4503599627370496)⌋ = 5 := by
    push_cast
    norm_num
  rw [hfl] at h2
  push_cast at h2
  norm_num at h2

theorem legend_spec_at6 : (legend_scaler_spec (List.range 12) 10).get? 6 = some (some 6) := by
  rw [legend_scaler_spec, if_neg (by simp)]
  simp only [List.length_range]
  rw [List.get?_eq_getElem?, List.getElem?_map, List.getElem?_range (by omega : 6 < 12)]
  simp only [Option.map_some']
  rw [if_pos]
  · rw [List.get?_eq_getElem?, List.getElem?_range (by omega : 6 < 12)]
  · constructor
    · omega
    · rw [pymod]
      have hfl : ⌊((6 : ℕ) : ℚ) / (((12 : ℕ) : ℚ) / ((10 : ℕ) : ℚ))⌋ = 5 := by
        push_cast
        norm_num
      rw [hfl]
      push_cast
      norm_num

/-- Claim C8, counterexample: with 12 legend values and `max_labels = 10`
the float divisor is the binary64 value `1.2 = 5404319552844595 / 2^52`,
slightly below `6/5`; `6 % 1.2` is then `2^-52`, not `0`, so the code
blanks index 6 while the spec's real-valued rule keeps it. -/
theorem C8_counterexample_float_divisor :
    legend_scaler (List.range 12) 10 ≠ legend_scaler_spec (List.range 12) 10 := by
  intro h
  have h6 : (some (Option.none (α := ℕ))) = some (some 6) := by
    rw [← legend_code_at6, ← legend_spec_at6, h]
  cases h6

theorem intLog10_eq (x : ℚ) (z : ℤ) (h1 : (10 : ℚ) ^ z ≤ x) (h2 : x < (10 : ℚ) ^ (z + 1)) :
    intLog10 x = z := by
  have hx : 0 < x := lt_of_lt_of_le (by positivity) h1
  rcases le_or_lt 0 z with hz | hz
  · lift z to ℕ using hz
    have hcast : (10 : ℚ) ^ (z : ℤ) = ((10 ^ z : ℕ) : ℚ) := by
      rw [zpow_natCast]; push_cast; ring
    have hcast1 : (10 : ℚ) ^ ((z : ℤ) + 1) = ((10 ^ (z + 1) : ℕ) : ℚ) := by
      have : ((z : ℤ) + 1) = ((z + 1 : ℕ) : ℤ) := by push_cast; ring
      rw [this, zpow_natCast]; push_cast; ring
    have hx1 : (1 : ℚ) ≤ x := by
      refine le_trans ?_ h1
      rw [hcast]
      exact_mod_cast Nat.one_le_iff_ne_zero.mpr (by positivity)
    rw [intLog10, if_pos hx1]
    have hfl1 : ((10 ^ z : ℕ) : ℤ) ≤ ⌊x⌋ := by
      apply Int.le_floor.mpr
      rw [← hcast] at *
      exact_mod_cast h1
    have hfl2 : ⌊x⌋ < ((10 ^ (z + 1) : ℕ) : ℤ) := by
      apply Int.floor_lt.mpr
      rw [← hcast1] at *
      exact_mod_cast h2
    have ht1 : 10 ^ z ≤ ⌊x⌋.toNat := by
      rw [Int.le_toNat (le_trans (by positivity) hfl1)]
      exact hfl1
    have ht2 : ⌊x⌋.toNat < 10 ^ (z + 1) := by
      omega
    rw [Nat.log_eq_of_pow_le_of_lt_pow ht1 ht2]
  · have hz1 : z + 1 ≤ 0 := by omega
    have hxlt1 : x < 1 := by
      refine lt_of_lt_of_le h2 ?_
      exact zpow_le_one_of_nonpos₀ (by norm_num) hz1
    rw [intLog10, if_neg (by linarith)]
    set k : ℕ := (-z).toNat with hk
    have hkz : (k : ℤ) = -z := Int.toNat_of_nonneg (by omega)
    have hk1 : 1 ≤ k := by omega
    have hinv1 : x⁻¹ ≤ (10 : ℚ) ^ (k : ℤ) := by
      rw [← one_div]
      rw [div_le_iff₀ hx]
      have h10 : (10 : ℚ) ^ (k : ℤ) * x ≥ (10 : ℚ) ^ (k : ℤ) * (10 : ℚ) ^ z := by
        apply mul_le_mul_of_nonneg_left h1 (by positivity)
      calc (1 : ℚ) = (10 : ℚ) ^ ((k : ℤ) + z) := by rw [hkz]; simp
        _ = (10 : ℚ) ^ (k : ℤ) * (10 : ℚ) ^ z := by rw [zpow_add₀ (by norm_num)]
        _ ≤ (10 : ℚ) ^ (k : ℤ) * x := h10
    have hinv2 : (10 : ℚ) ^ ((k : ℤ) - 1) < x⁻¹ := by
      rw [← one_div, lt_div_iff₀ hx]
      have : x * (10 : ℚ) ^ ((k : ℤ) - 1) < (10 : ℚ) ^ (z + 1) * (10 : ℚ) ^ ((k : ℤ) - 1) := by
        apply mul_lt_mul_of_pos_right h2 (by positivity)
      calc (10 : ℚ) ^ ((k : ℤ) - 1) * x = x * (10 : ℚ) ^ ((k : ℤ) - 1) := by ring
        _ < (10 : ℚ) ^ (z + 1) * (10 : ℚ) ^ ((k : ℤ) - 1) := this
        _ = (10 : ℚ) ^ (z + 1 + ((k : ℤ) - 1)) := by rw [← zpow_add₀ (by norm_num)]
        _ = 1 := by rw [hkz]; simp
    have hceil1 : ⌈x⁻¹⌉ ≤ ((10 ^ k : ℕ) : ℤ) := by
      apply Int.ceil_le.mpr
      push_cast
      calc x⁻¹ ≤ (10 : ℚ) ^ (k : ℤ) := hinv1
        _ = (10 : ℚ) ^ k := by rw [zpow_natCast]
    have hceil2 : ((10 ^ (k - 1) : ℕ) : ℤ) < ⌈x⁻¹⌉ := by
      have hc : (10 : ℚ) ^ ((k : ℤ) - 1) = ((10 ^ (k - 1) : ℕ) : ℚ) := by
        have : ((k : ℤ) - 1) = ((k - 1 : ℕ) : ℤ) := by omega
        rw [this, zpow_natCast]; push_cast; ring
      rw [hc] at hinv2
      exact_mod_cast lt_of_lt_of_le hinv2 (Int.le_ceil _)
    have hcpos : (0 : ℤ) ≤ ⌈x⁻¹⌉ := Int.ceil_nonneg (by positivity)
    have ht1 : ⌈x⁻¹⌉.toNat ≤ 10 ^ k := by omega
    have ht2 : 10 ^ (k - 1) < ⌈x⁻¹⌉.toNat := by omega
    have hclog : Nat.clog 10 ⌈x⁻¹⌉.toNat = k := by
      have hle : Nat.clog 10 ⌈x⁻¹⌉.toNat ≤ k :=
        (Nat.le_pow_iff_clog_le (by norm_num)).mp ht1
      have hge : k ≤ Nat.clog 10 ⌈x⁻¹⌉.toNat := by
        have := (Nat.pow_lt_iff_lt_clog (by norm_num)).mp ht2
        omega
      omega
    rw [hclog]
    omega

/-- Claim C9: the quantile rounding helper `base` returns
`round(x / 10^floor(log10 x)) * 10^floor(log10 x)` for `x > 0` (with
Python 3 half-to-even `round`, floats modelled as exact rationals) and `0`
for `x <= 0`; in particular `base 2100 = 2000`, `base 2790 = 3000` and
`base 0 = 0`. -/
theorem C9_base_rounding :
    base 2100 = 2000 ∧ base 2790 = 3000 ∧ base 0 = 0 ∧
      (∀ x : ℚ, x ≤ 0 → base x = 0) ∧
      (∀ (x : ℚ) (z : ℤ), (10 : ℚ) ^ z ≤ x → x < (10 : ℚ) ^ (z + 1) →
        base x = ((pyround (x / 10 ^ z) : ℤ) : ℚ) * 10 ^ z) := by
  have hforall : ∀ (x : ℚ) (z : ℤ), (10 : ℚ) ^ z ≤ x → x < (10 : ℚ) ^ (z + 1) →
      base x = ((pyround (x / 10 ^ z) : ℤ) : ℚ) * 10 ^ z := by
    intro x z h1 h2
    have hx : 0 < x := lt_of_lt_of_le (by positivity) h1
    rw [base, if_pos hx, intLog10_eq x z h1 h2]
  refine ⟨?_, ?_, ?_, fun x hx => by rw [base, if_neg (not_lt.mpr hx)], hforall⟩
  · have h := hforall 2100 3 (by norm_num) (by norm_num)
    rw [h]
    have hr : pyround ((2100 : ℚ) / 10 ^ (3 : ℤ)) = 2 := by
      rw [pyround]
      norm_num
    rw [hr]
    norm_num
  · have h := hforall 2790 3 (by norm_num) (by norm_num)
    rw [h]
    have hr : pyround ((2790 : ℚ) / 10 ^ (3 : ℤ)) = 3 := by
      rw [pyround]
      norm_num
    rw [hr]
    norm_num
  · rw [base]
    norm_num

/-- Claim C9, witness for the formula conjunct at `x = 2100`, `z = 3`. -/
theorem C9_base_rounding_witness :
    (10 : ℚ) ^ (3 : ℤ) ≤ 2100 ∧ (2100 : ℚ) < 10 ^ ((3 : ℤ) + 1) ∧
      base 2100 = ((pyround ((2100 : ℚ) / 10 ^ (3 : ℤ)) : ℤ) : ℚ) * 10 ^ (3 : ℤ) :=
  ⟨by norm_num, by norm_num,
    C9_base_rounding.2.2.2.2 2100 3 (by norm_num) (by norm_num)⟩

/-- Claim C8, witness for the amended statement at 20 values and
`max_labels = 10` (divisor `2.0`, exactly representable). -/
theorem C8_legend_scaler_matches_spec_witness :
    0 < 10 ∧
      fl64 (((List.range 20).length : ℚ) / ((10 : ℕ) : ℚ)) =
        ((List.range 20).length : ℚ) / ((10 : ℕ) : ℚ) ∧
      legend_scaler (List.range 20) 10 = legend_scaler_spec (List.range 20) 10 := by
  have hc : (((List.range 20).length : ℚ) / ((10 : ℕ) : ℚ)) = 2 := by
    rw [List.length_range]
    push_cast
    norm_num
  refine ⟨by decide, by rw [hc]; exact fl64_two, ?_⟩
  exact C8_legend_scaler_matches_spec (List.range 20) 10 (by decide) (by rw [hc]; exact fl64_two)
theorem scale_bound (s f : ℚ) (i : ℕ) (hi : i < 765) (hs0 : 0 ≤ s) (hs : s ≤ 255)
    (hf0 : 0 ≤ f) (hf : f ≤ 255) : 0 ≤ _scale s f 765 i ∧ _scale s f 765 i ≤ 255 := by
  rw [_scale]
  have h764 : ((765 : ℕ) : ℚ) - 1 = 764 := by norm_num
  rw [h764]
  have hfr0 : 0 ≤ (i : ℚ) / 764 := by positivity
  have hfr1 : (i : ℚ) / 764 ≤ 1 := by
    rw [div_le_one (by norm_num)]
    exact_mod_cast Nat.le_of_lt_succ (by omega : i < 765)
  constructor <;> nlinarith [mul_nonneg hfr0 (sub_nonneg.mpr hs0)]

theorem segment_inRange (s f : ℚ × ℚ × ℚ) (hs : inRGBRange s) (hf : inRGBRange f) :
    ∀ c ∈ segmentColors s f, inRGBRange c := by
  intro c hc
  rw [segmentColors] at hc
  obtain ⟨i, hi, rfl⟩ := List.mem_map.mp hc
  rw [List.mem_range] at hi
  obtain ⟨hs1, hs2, hs3, hs4, hs5, hs6⟩ := hs
  obtain ⟨hf1, hf2, hf3, hf4, hf5, hf6⟩ := hf
  refine ⟨?_, ?_, ?_, ?_, ?_, ?_⟩
  · exact (scale_bound _ _ i hi hs1 hs2 hf1 hf2).1
  · exact (scale_bound _ _ i hi hs1 hs2 hf1 hf2).2
  · exact (scale_bound _ _ i hi hs3 hs4 hf3 hf4).1
  · exact (scale_bound _ _ i hi hs3 hs4 hf3 hf4).2
  · exact (scale_bound _ _ i hi hs5 hs6 hf5 hf6).1
  · exact (scale_bound _ _ i hi hs5 hs6 hf5 hf6).2

theorem allColors_inRange (ps : List (ℚ × ℚ × ℚ)) (hps : ∀ c ∈ ps, inRGBRange c) :
    ∀ c ∈ allColors ps, inRGBRange c := by
  intro c hc
  rw [allColors] at hc
  obtain ⟨p, hp, hcp⟩ := List.mem_flatMap.mp hc
  obtain ⟨s, f, rfl⟩ : ∃ s f, p = (s, f) := ⟨p.1, p.2, rfl⟩
  obtain ⟨hmem1, hmem2⟩ := List.of_mem_zip hp
  have hs : inRGBRange s := hps s ((List.dropLast_sublist _).subset hmem1)
  have hf : inRGBRange f := hps f (List.drop_subset _ _ hmem2)
  exact segment_inRange s f hs hf c hcp

theorem linear_gradient_inRange (ps : List (ℚ × ℚ × ℚ)) (n : ℕ)
    (hps : ∀ c ∈ ps, inRGBRange c) : ∀ c ∈ linear_gradient ps n, inRGBRange c := by
  intro c hc
  rw [linear_gradient] at hc
  obtain ⟨k, _, rfl⟩ := List.mem_map.mp hc
  by_cases hidx : (pyint ((k : ℚ) / ((n : ℚ) - 1) * (((allColors ps).length : ℚ) - 1))).toNat <
      (allColors ps).length
  · rw [List.getD_eq_getElem _ _ hidx]
    exact allColors_inRange ps hps _ (List.getElem_mem hidx)
  · rw [List.getD_eq_default _ _ (le_of_not_lt hidx)]
    refine ⟨le_refl 0, by norm_num, le_refl 0, by norm_num, le_refl 0, by norm_num⟩

theorem numeric_to_indhex_of_bounds (v : ℤ) (h0 : 0 ≤ v) (h1 : v ≤ 15) :
    ∃ c ∈ hexDigits, _numeric_to_indhex v = some [c] := by
  have hv : v = ((v.toNat : ℕ) : ℤ) := (Int.toNat_of_nonneg h0).symm
  have hlt : v.toNat < 16 := by omega
  obtain ⟨he, _, hmem⟩ := nibble_spec v.toNat hlt
  exact ⟨hexDigits.getD v.toNat ' ', hmem, by rw [hv]; exact he⟩

theorem colorval_bound (x : ℚ) (h0 : 0 ≤ x) (h1 : x ≤ 255) :
    ∃ c1 c2, _colorval_to_hexval x = some [c1, c2] ∧ c1 ∈ hexDigits ∧ c2 ∈ hexDigits := by
  have hd0 : (0 : ℤ) ≤ ⌊x / 16⌋ := Int.floor_nonneg.mpr (by positivity)
  have hd1 : ⌊x / 16⌋ ≤ 15 := by
    have : ⌊x / 16⌋ < 16 := Int.floor_lt.mpr (by rw [div_lt_iff₀ (by norm_num : (0:ℚ) < 16)]; push_cast; linarith)
    omega
  have hfr : pymod x 16 = 16 * Int.fract (x / 16) := by
    rw [pymod, Int.fract]
    ring
  have hm0 : (0 : ℚ) ≤ pymod x 16 := by
    rw [hfr]
    have := Int.fract_nonneg (x / 16)
    linarith
  have hm1 : pymod x 16 < 16 := by
    rw [hfr]
    have := Int.fract_lt_one (x / 16)
    linarith
  have hpm0 : (0 : ℤ) ≤ ⌊pymod x 16⌋ := Int.floor_nonneg.mpr hm0
  have hpm1 : ⌊pymod x 16⌋ ≤ 15 := by
    have : ⌊pymod x 16⌋ < 16 := Int.floor_lt.mpr (by exact_mod_cast hm1)
    omega
  have hpi1 : pyint (x / 16) = ⌊x / 16⌋ := by rw [pyint, if_pos (by positivity)]
  have hpi2 : pyint (pymod x 16) = ⌊pymod x 16⌋ := by rw [pyint, if_pos hm0]
  obtain ⟨c1, hc1m, hc1⟩ := numeric_to_indhex_of_bounds _ hd0 hd1
  obtain ⟨c2, hc2m, hc2⟩ := numeric_to_indhex_of_bounds _ hpm0 hpm1
  refine ⟨c1, c2, ?_, hc1m, hc2m⟩
  rw [_colorval_to_hexval, hpi1, hpi2, hc1, hc2]
  rfl

theorem rgb_to_hex_chars_of_inRange (c : ℚ × ℚ × ℚ) (h : inRGBRange c) :
    ∃ cs, rgb_to_hex_chars [c.1, c.2.1, c.2.2] = some cs ∧ wellFormedHexChars cs = true := by
  obtain ⟨h1, h2, h3, h4, h5, h6⟩ := h
  obtain ⟨a1, a2, ha, ha1, ha2⟩ := colorval_bound c.1 h1 h2
  obtain ⟨b1, b2, hb, hb1, hb2⟩ := colorval_bound c.2.1 h3 h4
  obtain ⟨d1, d2, hd, hd1, hd2⟩ := colorval_bound c.2.2 h5 h6
  refine ⟨['#', a1, a2, b1, b2, d1, d2], ?_, ?_⟩
  · rw [rgb_to_hex_chars]
    simp only [mapOpt_cons, mapOpt_nil, ha, hb, hd, Option.some_bind, List.flatten_cons,
      List.flatten_nil, List.append_nil, List.cons_append, List.nil_append]
  · simp only [wellFormedHexChars, List.all_cons, List.all_nil, Bool.and_true, List.length_cons,
      List.length_nil]
    simp [ha1, ha2, hb1, hb2, hd1, hd2]

theorem lookup_mem {β : Type} {l : List (String × β)} {k : String} {v : β}
    (h : l.lookup k = some v) : (k, v) ∈ l := by
  induction l with
  | nil => simp [List.lookup] at h
  | cons p t ih =>
    obtain ⟨a, b⟩ := p
    rw [List.lookup] at h
    by_cases hk : k == a
    · rw [hk] at h
      simp only [Option.some.injEq] at h
      subst h
      have hka : k = a := by exact_mod_cast eq_of_beq hk
      subst hka
      exact List.mem_cons_self _ _
    · rw [Bool.not_eq_true] at hk
      rw [hk] at h
      exact List.mem_cons_of_mem _ (ih h)

theorem schemes_decode_ok : schemes.all (fun p => p.2.all (fun h =>
    match hex_to_rgb h with
    | some l => l.length == 3 && l.all (fun v => decide (0 ≤ v) && decide (v ≤ 255))
    | none => false)) = true := by decide

theorem decodedTriple_of_entry (h : String)
    (hprop : (match hex_to_rgb h with
      | some l => l.length == 3 && l.all (fun v => decide (0 ≤ v) && decide (v ≤ 255))
      | none => false) = true) :
    ∃ c, (hex_to_rgb h).bind listToTriple = some c ∧ inRGBRange c := by
  cases hh : hex_to_rgb h with
  | none => rw [hh] at hprop; cases hprop
  | some l =>
    rw [hh] at hprop
    simp only [Bool.and_eq_true, beq_iff_eq, List.all_eq_true, Bool.and_eq_true,
      decide_eq_true_eq] at hprop
    obtain ⟨hlen, hall⟩ := hprop
    obtain ⟨r, g, b, rfl⟩ : ∃ r g b, l = [r, g, b] := by
      rcases l with _ | ⟨r, _ | ⟨g, _ | ⟨b, _ | ⟨c, t⟩⟩⟩⟩ <;> simp_all
    refine ⟨((r : ℚ), (g : ℚ), (b : ℚ)), rfl, ?_⟩
    have hr := hall r (by simp)
    have hg := hall g (by simp)
    have hb := hall b (by simp)
    refine ⟨?_, ?_, ?_, ?_, ?_, ?_⟩
    · show (0 : ℚ) ≤ (r : ℚ)
      exact_mod_cast hr.1
    · show (r : ℚ) ≤ 255
      exact_mod_cast hr.2
    · show (0 : ℚ) ≤ (g : ℚ)
      exact_mod_cast hg.1
    · show (g : ℚ) ≤ 255
      exact_mod_cast hg.2
    · show (0 : ℚ) ≤ (b : ℚ)
      exact_mod_cast hb.1
    · show (b : ℚ) ≤ 255
      exact_mod_cast hb.2

theorem schemeDecode_ok (name : String) (baseScheme : List String)
    (hlk : schemes.lookup name = some baseScheme) :
    ∃ rgbs, mapOpt (fun h => (hex_to_rgb h).bind listToTriple) baseScheme = some rgbs ∧
      ∀ c ∈ rgbs, inRGBRange c := by
  have hmem := lookup_mem hlk
  have hall := (List.all_eq_true.mp schemes_decode_ok) _ hmem
  simp only [List.all_eq_true] at hall
  have hsome : ∀ h ∈ baseScheme, ((hex_to_rgb h).bind listToTriple).isSome := by
    intro h hh
    obtain ⟨c, hc, _⟩ := decodedTriple_of_entry h (hall h hh)
    rw [hc]
    rfl
  obtain ⟨rgbs, hrgbs⟩ := Option.isSome_iff_exists.mp (mapOpt_isSome_iff.mpr hsome)
  refine ⟨rgbs, hrgbs, ?_⟩
  intro c hc
  obtain ⟨h, hh, hfc⟩ := mem_of_mapOpt hrgbs c hc
  have hfc2 : (hex_to_rgb h).bind listToTriple = some c := hfc
  obtain ⟨c2, hc2, hin⟩ := decodedTriple_of_entry h (hall h hh)
  rw [hfc2] at hc2
  simp only [Option.some.injEq] at hc2
  rwa [← hc2] at hin

theorem gradient_encode_ok (rgbs : List (ℚ × ℚ × ℚ)) (n : ℕ)
    (h : ∀ c ∈ rgbs, inRGBRange c) :
    ∃ hexes, mapOpt (fun c => rgb_to_hex [c.1, c.2.1, c.2.2]) (linear_gradient rgbs n) =
        some hexes ∧ ∀ s ∈ hexes, wellFormedHex s = true := by
  have hin := linear_gradient_inRange rgbs n h
  have hsome : ∀ c ∈ linear_gradient rgbs n, (rgb_to_hex [c.1, c.2.1, c.2.2]).isSome := by
    intro c hc
    obtain ⟨cs, hcs, _⟩ := rgb_to_hex_chars_of_inRange c (hin c hc)
    rw [rgb_to_hex, hcs]
    rfl
  obtain ⟨hexes, hhex⟩ := Option.isSome_iff_exists.mp (mapOpt_isSome_iff.mpr hsome)
  refine ⟨hexes, hhex, ?_⟩
  intro s hs
  obtain ⟨c, hc, hfc⟩ := mem_of_mapOpt hhex s hs
  have hfc2 : rgb_to_hex [c.1, c.2.1, c.2.2] = some s := hfc
  obtain ⟨cs, hcs, hwf⟩ := rgb_to_hex_chars_of_inRange c (hin c hc)
  rw [rgb_to_hex, hcs] at hfc2
  simp only [Option.map_some', Option.some.injEq] at hfc2
  rw [← hfc2, wellFormedHex]
  exact hwf

theorem color_brewer_ok_of_le (name : String) (n : ℕ) (hn : n ≤ 253) :
    ∃ v, color_brewer name n = Except.ok v := by
  rw [color_brewer, if_neg (by simp only [maximum_n]; omega)]
  by_cases h6 : n > 6
  · rw [if_pos h6]
    cases hlk : schemes.lookup name with
    | none => exact ⟨none, rfl⟩
    | some baseScheme =>
      obtain ⟨rgbs, hrgbs, hin⟩ := schemeDecode_ok name baseScheme hlk
      obtain ⟨hexes, hhex, _⟩ := gradient_encode_ok rgbs n hin
      simp only [hrgbs, hhex]
      exact ⟨some hexes, rfl⟩
  · rw [if_neg h6]
    exact ⟨_, rfl⟩

/-- Claim C6: `color_brewer` raises (`ValueError` in the source) if and
only if the requested palette size exceeds 253 — for every scheme name,
known or unknown, since the size check precedes the name lookup; for
`n <= 253` every path returns a value. -/
theorem C6_range_error_iff (name : String) (n : ℕ) :
    (∃ e, color_brewer name n = Except.error e) ↔ 253 < n := by
  constructor
  · rintro ⟨e, he⟩
    by_contra hn
    push_neg at hn
    obtain ⟨v, hv⟩ := color_brewer_ok_of_le name n hn
    rw [hv] at he
    cases he
  · intro hn
    refine ⟨"The maximum number of colors in a ColorBrewer sequential color series is 253", ?_⟩
    rw [color_brewer, if_pos (by simp only [maximum_n]; omega)]

/-- Claim C10: for every known scheme name and every `n` with
`6 < n <= 253`, `color_brewer` returns a list in which every element is a
well-formed hex color — `'#'` followed by exactly 6 characters from
`0`–`9`, `A`–`F` — even though the interpolated channel values are
fractional before the nibble truncation. -/
theorem C10_scheme_hex_wellformed (name : String) (baseScheme : List String) (n : ℕ)
    (hlk : schemes.lookup name = some baseScheme) (h6 : 6 < n) (_h253 : n ≤ 253) :
    ∃ l, color_brewer name n = Except.ok (some l) ∧ ∀ s ∈ l, wellFormedHex s = true := by
  rw [color_brewer, if_neg (by simp only [maximum_n]; omega), if_pos h6, hlk]
  obtain ⟨rgbs, hrgbs, hin⟩ := schemeDecode_ok name baseScheme hlk
  obtain ⟨hexes, hhex, hwf⟩ := gradient_encode_ok rgbs n hin
  simp only [hrgbs, hhex]
  exact ⟨hexes, rfl, hwf⟩

/-- Claim C10, witness at `("BuGn", 7)`. -/
theorem C10_scheme_hex_wellformed_witness :
    schemes.lookup "BuGn" = some ["#EDF8FB", "#CCECE6", "#CCECE6", "#66C2A4", "#41AE76",
        "#238B45", "#005824"] ∧ 6 < 7 ∧ 7 ≤ 253 ∧
      ∃ l, color_brewer "BuGn" 7 = Except.ok (some l) ∧ ∀ s ∈ l, wellFormedHex s = true :=
  ⟨by decide, by decide, by decide,
    C10_scheme_hex_wellformed "BuGn"
      ["#EDF8FB", "#CCECE6", "#CCECE6", "#66C2A4", "#41AE76", "#238B45", "#005824"] 7
      (by decide) (by decide) (by decide)⟩
